import Mathlib

/-!
Shallow embedding of the go-lru sharded LRU cache (src/lru.go, src/shard.go).

Modelling choices:
* `time.Time` and `time.Duration` are modelled as `Nat`; `NoExpiration = 0`;
  `t1.Before(t2)` is `t1 < t2`; `now.Add(ttl)` is `now + ttl`.  The current
  clock value is passed explicitly to every operation that calls `time.Now()`.
* `Entry.Expiration : *time.Time` is `Option Nat` (`none` = nil pointer).
* A shard is its recency list, front = most recently used (the `table` map is
  the key-indexed view of that list, kept in sync by the code; `shard.get` is
  `List.find?` on the key, `shard.remove` of the element found by `get` is
  `List.eraseP` on the same predicate, removal of `shard.oldest()` is
  `List.dropLast`, `shard.offer` of the found element moves it to the front).
* The removal hook `OnRemove` is modelled as an event trace: every operation
  returns, besides its result, the list of entries passed to the hook, in
  call order.
* The entry pool always hands out entries with `Expiration = nil`: fresh
  entries are zero-valued and `LRU.remove` clears `Expiration` before
  returning an entry to the pool; `Key`/`Value` are always overwritten by the
  taker.  A new entry therefore starts with `expiration = none`.
* `entry.Expiration.Before(now)` on a nil `Expiration` dereferences a nil
  pointer and panics; operations return `Option _`, `none` meaning that panic.
-/

/-- `Entry`: the stored record (key, opaque value, optional deadline). -/
structure Entry (α : Type) where
  key : String
  value : α
  expiration : Option Nat
deriving Repr, DecidableEq

/-- A shard's state: its recency list, front = most recently used.  The
`table` index is the key-indexed view of this list. -/
abbrev Shard (α : Type) := List (Entry α)

/-- `lruShard.get`: table lookup of the element holding `k`. -/
def Shard.get (s : Shard α) (k : String) : Option (Entry α) :=
  s.find? (fun e => e.key == k)

/-- `lruShard.add`: bind a node and push it to the front of the list. -/
def Shard.add (s : Shard α) (e : Entry α) : Shard α :=
  e :: s

/-- `lruShard.putIfAbsent`: insert only if the key is absent. -/
def Shard.putIfAbsent (s : Shard α) (e : Entry α) : Shard α :=
  if (Shard.get s e.key).isSome then s else Shard.add s e

/-- `lruShard.oldest`: back of the recency list (eviction candidate). -/
def Shard.oldest (s : Shard α) : Option (Entry α) :=
  s.getLast?

/-- `lruShard.len`: list length. -/
def Shard.size (s : Shard α) : Nat :=
  s.length

/-- `genExp(ttl)`: `(now, exp)` with `exp = &(now+ttl)` when `ttl`
is not `NoExpiration`, nil otherwise (src/lru.go `genExp`). -/
def genExp (ttl now : Nat) : Nat × Option Nat :=
  (now, if ttl ≠ 0 then some (now + ttl) else none)

/-- Outcome of `LRU.getEntry` on a shard.  `nilDeref` is the nil-pointer
dereference of `entry.Expiration.Before(now)` when the entry has no deadline
and the cache's TTL is enabled.  `notFound` carries the shard afterwards and
the hook trace (the expired entry, when one was removed).  `found e rest`
means the shard afterwards is `e :: rest` (the found entry, mutated and
promoted to the front). -/
inductive LookupResult (α : Type) where
  | nilDeref : LookupResult α
  | notFound (s : Shard α) (removed : List (Entry α)) : LookupResult α
  | found (e : Entry α) (rest : Shard α) : LookupResult α
deriving Repr, DecidableEq

/-- `LRU.getEntry(shard, key, now, exp)` (src/lru.go): table lookup; if the
cache TTL is enabled and the stored deadline is before `now`, remove the
entry (hook fires); otherwise overwrite the entry's deadline with `exp` and
promote it to the front. -/
def getEntry (cTTL : Nat) (s : Shard α) (k : String) (now : Nat)
    (exp : Option Nat) : LookupResult α :=
  match Shard.get s k with
  | none => .notFound s []
  | some e =>
    if cTTL ≠ 0 then
      match e.expiration with
      | none => .nilDeref
      | some d =>
        if d < now then
          .notFound (s.eraseP (fun x => x.key == k)) [e]
        else
          .found { e with expiration := exp } (s.eraseP (fun x => x.key == k))
    else
      .found { e with expiration := exp } (s.eraseP (fun x => x.key == k))

/-- `LRU.SetWithTTL` restricted to the selected shard (src/lru.go): overwrite
in place when found live; otherwise insert a fresh entry (deadline only when
`ttl` is not `NoExpiration`) and evict the shard's oldest node when the shard
length exceeds `eps`.  Returns `none` on the nil-deadline panic, otherwise
the shard afterwards and the hook trace. -/
def setWithTTLShard (cTTL eps : Nat) (s : Shard α) (k : String) (v : α)
    (ttl now : Nat) : Option (Shard α × List (Entry α)) :=
  let exp := (genExp ttl now).2
  match getEntry cTTL s k now exp with
  | .nilDeref => none
  | .found e rest => some ({ e with value := v } :: rest, [])
  | .notFound s₁ tr₁ =>
    let e : Entry α := { key := k, value := v,
                         expiration := if ttl ≠ 0 then exp else none }
    let s₂ := Shard.add s₁ e
    if Shard.size s₂ > eps then
      some (s₂.dropLast, tr₁ ++ s₂.getLast?.toList)
    else
      some (s₂, tr₁)

/-- `LRU.Set` restricted to the selected shard: `SetWithTTL` with the cache's
default TTL. -/
def setShard (cTTL eps : Nat) (s : Shard α) (k : String) (v : α)
    (now : Nat) : Option (Shard α × List (Entry α)) :=
  setWithTTLShard cTTL eps s k v cTTL now

/-- `LRU.Get` restricted to the selected shard (src/lru.go): lookup with the
default TTL; on success the value, the shard afterwards and the hook trace. -/
def getShard (cTTL : Nat) (s : Shard α) (k : String) (now : Nat) :
    Option (Option α × Shard α × List (Entry α)) :=
  match getEntry cTTL s k now (genExp cTTL now).2 with
  | .nilDeref => none
  | .notFound s' tr => some (none, s', tr)
  | .found e rest => some (some e.value, e :: rest, [])

/-- `LRU.GetEntry` restricted to the selected shard: like `Get` but returns
the whole entry. -/
def getEntryShard (cTTL : Nat) (s : Shard α) (k : String) (now : Nat) :
    Option (Option (Entry α) × Shard α × List (Entry α)) :=
  match getEntry cTTL s k now (genExp cTTL now).2 with
  | .nilDeref => none
  | .notFound s' tr => some (none, s', tr)
  | .found e rest => some (some e, e :: rest, [])

/-- `LRU.Update` restricted to the selected shard (src/lru.go): lookup, then
apply the callback to the found entry in place (the callback is modelled as a
pure transform of the entry's fields). -/
def updateShard (cTTL : Nat) (s : Shard α) (k : String)
    (cb : Entry α → Entry α) (now : Nat) :
    Option (Option (Entry α) × Shard α × List (Entry α)) :=
  match getEntry cTTL s k now (genExp cTTL now).2 with
  | .nilDeref => none
  | .notFound s' tr => some (none, s', tr)
  | .found e rest => some (some (cb e), cb e :: rest, [])

/-- `LRU.Remove` restricted to the selected shard (src/lru.go): raw table
lookup (no TTL check), then detach and fire the hook. -/
def removeShard (s : Shard α) (k : String) : Shard α × List (Entry α) :=
  match Shard.get s k with
  | none => (s, [])
  | some e => (s.eraseP (fun x => x.key == k), [e])

/-- The cache (src/lru.go `LRU`).  The FNV-32 router is abstracted as the
`hashFn` field (the spec treats the concrete hash as an out-of-scope detail
of the stateless router); `shard(k) = shards[hashFn k % shardSize]`.
The pools hold no observable state and are not modelled. -/
structure LRU (α : Type) where
  TTL : Nat
  shardSize : Nat
  eps : Nat
  shards : List (Shard α)
  hashFn : String → Nat

/-- `NewLRU(entrySize, shardSize, ttl)` (src/lru.go): one shard when
`entrySize < 128`; `eps = ceil(entrySize / shardSize)`. -/
def NewLRU (α : Type) (entrySize shardSize ttl : Nat)
    (hashFn : String → Nat) : LRU α :=
  let sz := if entrySize < 128 then 1 else shardSize
  let eps := entrySize / sz + (if entrySize % sz > 0 then 1 else 0)
  { TTL := ttl, shardSize := sz, eps := eps,
    shards := List.replicate sz [], hashFn := hashFn }

/-- `New(entrySize)`: default shard count, no expiration. -/
def NewCache (α : Type) (entrySize : Nat) (hashFn : String → Nat) : LRU α :=
  NewLRU α entrySize 64 0 hashFn

/-- `LRU.getShard`: index of the shard a key routes to. -/
def LRU.shardIdx (c : LRU α) (k : String) : Nat :=
  c.hashFn k % c.shardSize

/-- Replace shard `i` of the cache. -/
def LRU.withShard (c : LRU α) (i : Nat) (s : Shard α) : LRU α :=
  { c with shards := c.shards.set i s }

/-- `LRU.Set` (src/lru.go): route, then `SetWithTTL` with the default TTL on
that shard.  `none` is the nil-deadline panic. -/
def LRU.set (c : LRU α) (k : String) (v : α) (now : Nat) :
    Option (LRU α × List (Entry α)) :=
  let i := c.shardIdx k
  match setWithTTLShard c.TTL c.eps (c.shards.getD i []) k v c.TTL now with
  | none => none
  | some (s', tr) => some (c.withShard i s', tr)

/-- `LRU.SetWithTTL` (src/lru.go) at cache level. -/
def LRU.setWithTTL (c : LRU α) (k : String) (v : α) (ttl now : Nat) :
    Option (LRU α × List (Entry α)) :=
  let i := c.shardIdx k
  match setWithTTLShard c.TTL c.eps (c.shards.getD i []) k v ttl now with
  | none => none
  | some (s', tr) => some (c.withShard i s', tr)

/-- `LRU.Get` (src/lru.go) at cache level. -/
def LRU.get (c : LRU α) (k : String) (now : Nat) :
    Option (Option α × LRU α × List (Entry α)) :=
  let i := c.shardIdx k
  match getShard c.TTL (c.shards.getD i []) k now with
  | none => none
  | some (v?, s', tr) => some (v?, c.withShard i s', tr)

/-- `LRU.Len` (src/lru.go): sum of the shard lengths. -/
def LRU.len (c : LRU α) : Nat :=
  (c.shards.map Shard.size).sum

/-- `LRU.Flush` (src/lru.go): every shard is swapped for a fresh empty
index+list; the hook then fires once per entry of each old list, walked
front to back, shard by shard. -/
def LRU.flush (c : LRU α) : LRU α × List (Entry α) :=
  ({ c with shards := List.replicate c.shards.length [] }, c.shards.flatten)

/-- `LRU.Load` (src/lru.go): decode records until end of stream, inserting
each via `putIfAbsent` on the shard its key routes to.  The decoded stream
is the list of records; the error-free path is modelled. -/
def LRU.load (c : LRU α) (records : List (Entry α)) : LRU α :=
  records.foldl
    (fun c e =>
      let i := c.shardIdx e.key
      c.withShard i (Shard.putIfAbsent (c.shards.getD i []) e))
    c

/-- Modelled from the spec: `SetOrUpdate` is code of this repository missing
from src/ (only its caller `TestUpdate` in src/lru_test.go is present).
Spec: "`set_or_update(key, value, fn) -> existed`: if the key exists, apply
`fn` to its current entry (as in `update`); otherwise insert `value`
verbatim via the normal write path.  Returns whether the key existed
beforehand."  Modelled on the selected shard: the `update` lookup (default
TTL), then `fn` in place on a hit, or the `Set` write path on a miss. -/
def setOrUpdateShard (cTTL eps : Nat) (s : Shard α) (k : String) (v : α)
    (cb : Entry α → Entry α) (now : Nat) :
    Option (Bool × Shard α × List (Entry α)) :=
  match getEntry cTTL s k now (genExp cTTL now).2 with
  | .nilDeref => none
  | .found e rest => some (true, cb e :: rest, [])
  | .notFound s₁ tr₁ =>
    match setWithTTLShard cTTL eps s₁ k v cTTL now with
    | none => none
    | some (s₂, tr₂) => some (false, s₂, tr₁ ++ tr₂)

/-! ### Basic facts about `getEntry` -/

lemma getEntry_absent {α} (cTTL : Nat) (s : Shard α) (k : String) (now : Nat)
    (exp : Option Nat) (h : Shard.get s k = none) :
    getEntry cTTL s k now exp = .notFound s [] := by
  unfold getEntry; rw [h]

lemma getEntry_ttl0 {α} (s : Shard α) (k : String) (now : Nat) (exp : Option Nat)
    (e : Entry α) (h : Shard.get s k = some e) :
    getEntry 0 s k now exp
      = .found { e with expiration := exp } (s.eraseP (fun x => x.key == k)) := by
  unfold getEntry; rw [h]; simp

lemma getEntry_live {α} {cTTL : Nat} (s : Shard α) (k : String) (now : Nat)
    (exp : Option Nat) (e : Entry α) (d : Nat) (hTTL : cTTL ≠ 0)
    (h : Shard.get s k = some e) (hd : e.expiration = some d)
    (hlive : ¬ d < now) :
    getEntry cTTL s k now exp
      = .found { e with expiration := exp } (s.eraseP (fun x => x.key == k)) := by
  unfold getEntry; rw [h]; simp [hTTL, hd, hlive]

lemma getEntry_expired {α} {cTTL : Nat} (s : Shard α) (k : String) (now : Nat)
    (exp : Option Nat) (e : Entry α) (d : Nat) (hTTL : cTTL ≠ 0)
    (h : Shard.get s k = some e) (hd : e.expiration = some d)
    (hexp : d < now) :
    getEntry cTTL s k now exp
      = .notFound (s.eraseP (fun x => x.key == k)) [e] := by
  unfold getEntry; rw [h]; simp [hTTL, hd, hexp]

lemma getEntry_nilExp {α} {cTTL : Nat} (s : Shard α) (k : String) (now : Nat)
    (exp : Option Nat) (e : Entry α) (hTTL : cTTL ≠ 0)
    (h : Shard.get s k = some e) (hd : e.expiration = none) :
    getEntry cTTL s k now exp = .nilDeref := by
  unfold getEntry; rw [h]; simp [hTTL, hd]

lemma key_of_get {α} {s : Shard α} {k : String} {e : Entry α}
    (h : Shard.get s k = some e) : e.key = k := by
  have := List.find?_some h
  simpa using this

/-- `Set` with the TTL disabled always leaves the written entry
(no deadline, the raw value) at the front of the shard, provided the
per-shard capacity bound is at least 1. -/
lemma setShard_ttl0 {α} (eps : Nat) (s : Shard α) (k : String) (v : α)
    (now : Nat) (heps : 1 ≤ eps) :
    ∃ t tr, setShard 0 eps s k v now
      = some ((⟨k, v, none⟩ : Entry α) :: t, tr) := by
  simp only [setShard, setWithTTLShard]
  cases h : Shard.get s k with
  | none =>
    rw [getEntry_absent _ _ _ _ _ h]
    simp only [genExp, ne_eq, not_true_eq_false, if_neg, ite_false, Shard.add,
      Shard.size, List.length_cons]
    by_cases hsz : eps < s.length + 1
    · rw [if_pos hsz]
      cases s with
      | nil => exact absurd hsz (by simp only [List.length_nil]; omega)
      | cons b t' =>
        exact ⟨(b :: t').dropLast, (b :: t').getLast?.toList,
          by rw [List.dropLast_cons₂, List.getLast?_cons_cons, List.nil_append]⟩
    · rw [if_neg hsz]
      exact ⟨s, [], rfl⟩
  | some e =>
    rw [getEntry_ttl0 _ _ _ _ _ h]
    have hk : e.key = k := key_of_get h
    exact ⟨s.eraseP (fun x => x.key == k), [], by simp [genExp, hk]⟩

/-- A `Get` with TTL disabled on a shard whose front entry holds the key
finds that entry's value, promotes it (already at the front) and fires no
hook. -/
lemma getShard_ttl0_head {α} (t : List (Entry α)) (k : String) (v : α)
    (now : Nat) :
    getShard 0 ((⟨k, v, none⟩ : Entry α) :: t) k now
      = some (some v, (⟨k, v, none⟩ : Entry α) :: t, []) := by
  have hfind : Shard.get ((⟨k, v, none⟩ : Entry α) :: t) k
      = some (⟨k, v, none⟩ : Entry α) :=
    List.find?_cons_of_pos _ (by simp)
  unfold getShard
  rw [getEntry_ttl0 _ _ _ _ _ hfind]
  simp [genExp, List.eraseP_cons_of_pos]

/-- `getD`-of-`set` at the written index. -/
lemma getD_set_self {α} (l : List (List (Entry α))) (i : Nat)
    (x : List (Entry α)) (h : i < l.length) : (l.set i x).getD i [] = x := by
  rw [List.getD_eq_getElem?_getD, List.getElem?_set_self (by simpa using h)]
  rfl

/-- C1: on a cache whose TTL is disabled (`NoExpiration`), for every key `k`
and value `v`, `Set(k, v)` followed immediately by `Get(k)` (so no
intervening capacity eviction or removal of `k`; the Set itself cannot evict
`k` because the per-shard bound is at least 1) returns `(v, true)`. -/
theorem set_then_get_ttl_disabled {α} (c : LRU α) (k : String) (v : α)
    (now now' : Nat) (hTTL : c.TTL = 0) (heps : 1 ≤ c.eps)
    (hsz : 0 < c.shardSize) (hlen : c.shards.length = c.shardSize) :
    ((c.set k v now).bind fun r => (r.1.get k now').map fun g => g.1)
      = some (some v) := by
  obtain ⟨t, tr, hset⟩ :=
    setShard_ttl0 c.eps (c.shards.getD (c.shardIdx k) []) k v now heps
  simp only [setShard, LRU.shardIdx] at hset
  have hidx : c.hashFn k % c.shardSize < c.shards.length := by
    rw [hlen]; exact Nat.mod_lt _ hsz
  simp only [LRU.set, LRU.get, LRU.withShard, LRU.shardIdx, hTTL, hset,
    Option.bind_some, Option.some_bind]
  rw [getD_set_self _ _ _ hidx]
  rw [getShard_ttl0_head]
  rfl

/-- Witness for C1 at a concrete cache: one shard, bound 1, TTL disabled. -/
theorem set_then_get_ttl_disabled_witness :
    ((LRU.set { TTL := 0, shardSize := 1, eps := 1, shards := [[]],
                hashFn := fun _ => 0 } "k" (5 : Nat) 0).bind
        fun r => (r.1.get "k" 1).map fun g => g.1)
      = some (some 5) :=
  set_then_get_ttl_disabled
    { TTL := 0, shardSize := 1, eps := 1, shards := [[]], hashFn := fun _ => 0 }
    "k" 5 0 1 rfl (by decide) (by decide) rfl

/-- The back of a list, when it exists, closes the list after `dropLast`. -/
lemma dropLast_append_of_getLast? {α : Type} {l : List α} {a : α}
    (h : l.getLast? = some a) : l.dropLast ++ [a] = l := by
  cases l with
  | nil => simp at h
  | cons b t =>
    have hne : b :: t ≠ [] := by simp
    rw [List.getLast?_eq_getLast _ hne, Option.some_inj] at h
    rw [← h]
    exact List.dropLast_concat_getLast hne

/-- C2: inserting a new (absent) key into a shard already holding exactly
`eps ≥ 1` entries evicts exactly the shard's least-recently-used (back)
entry within the same `Set` call: the hook fires exactly once, with that
victim, and a subsequent `Get` of the victim's key misses and leaves the
shard unchanged. -/
theorem insert_full_shard_evicts_lru {α} (cTTL eps : Nat) (s : Shard α)
    (k : String) (v : α) (victim : Entry α) (now now' : Nat)
    (habs : Shard.get s k = none) (hlen : Shard.size s = eps)
    (hvictim : s.getLast? = some victim)
    (hnodup : (s.map Entry.key).Nodup) :
    setShard cTTL eps s k v now
      = some ((⟨k, v, if cTTL ≠ 0 then some (now + cTTL) else none⟩ : Entry α)
            :: s.dropLast, [victim])
    ∧ getShard cTTL
        ((⟨k, v, if cTTL ≠ 0 then some (now + cTTL) else none⟩ : Entry α)
          :: s.dropLast) victim.key now'
      = some (none,
          (⟨k, v, if cTTL ≠ 0 then some (now + cTTL) else none⟩ : Entry α)
            :: s.dropLast, []) := by
  have hsplit : s.dropLast ++ [victim] = s := dropLast_append_of_getLast? hvictim
  have hvk : victim.key ≠ k := by
    intro hk
    have hmem : victim ∈ s := by rw [← hsplit]; simp
    have := List.find?_eq_none.mp habs victim hmem
    simp [hk] at this
  have hkeys : victim.key ∉ s.dropLast.map Entry.key := by
    intro hmem
    have : (s.dropLast.map Entry.key ++ [victim.key]).Nodup := by
      have h2 : s.map Entry.key = s.dropLast.map Entry.key ++ [victim.key] := by
        rw [← hsplit]; simp
      rwa [h2] at hnodup
    exact (List.nodup_append.mp this).2.2 hmem (by simp)
  constructor
  · cases s with
    | nil => exact absurd hvictim (by simp)
    | cons b t =>
      simp only [setShard, setWithTTLShard]
      rw [getEntry_absent _ _ _ _ _ habs]
      simp only [genExp, Shard.add, Shard.size, List.length_cons]
      rw [if_pos (by simp [Shard.size, List.length_cons] at hlen; omega)]
      rw [List.dropLast_cons₂, List.getLast?_cons_cons, hvictim]
      simp
      intro hc
      simp [hc]
  · have habs2 : Shard.get
        ((⟨k, v, if cTTL ≠ 0 then some (now + cTTL) else none⟩ : Entry α)
          :: s.dropLast) victim.key = none := by
      apply List.find?_eq_none.mpr
      intro x hx
      rcases List.mem_cons.mp hx with hx | hx
      · subst hx; simpa using fun h => hvk h.symm
      · simp only [beq_iff_eq]
        intro hkx
        exact hkeys (hkx ▸ List.mem_map_of_mem Entry.key hx)
    unfold getShard
    rw [getEntry_absent _ _ _ _ _ habs2]

/-- Witness for C2: single-shard bound 1, TTL disabled; inserting "b" into a
shard full with "a" evicts "a"; getting "a" afterwards misses. -/
theorem insert_full_shard_evicts_lru_witness :
    setShard 0 1 [(⟨"a", 1, none⟩ : Entry Nat)] "b" 2 0
      = some ([⟨"b", 2, none⟩], [⟨"a", 1, none⟩])
    ∧ getShard 0 [(⟨"b", 2, none⟩ : Entry Nat)] "a" 1
      = some (none, [⟨"b", 2, none⟩], []) := by
  have h := insert_full_shard_evicts_lru (α := Nat) 0 1 [⟨"a", 1, none⟩]
    "b" 2 ⟨"a", 1, none⟩ 0 1 (by decide) rfl rfl (by decide)
  simpa using h

/-- C3: with a default TTL configured, a `Get` of a key whose stored deadline
is strictly before the current time misses, removes the entry from the
shard (its key is gone from the index afterwards), and fires the removal
hook exactly once with that entry. -/
theorem get_expired_removes_and_hooks {α} (cTTL : Nat) (s : Shard α)
    (k : String) (e : Entry α) (d now : Nat) (hTTL : cTTL ≠ 0)
    (hfind : Shard.get s k = some e) (hd : e.expiration = some d)
    (hlt : d < now) (hnodup : (s.map Entry.key).Nodup) :
    getShard cTTL s k now
      = some (none, s.eraseP (fun x => x.key == k), [e])
    ∧ Shard.get (s.eraseP (fun x => x.key == k)) k = none := by
  constructor
  · unfold getShard
    rw [getEntry_expired _ _ _ _ _ _ hTTL hfind hd hlt]
  · apply List.find?_eq_none.mpr
    intro x hx
    simp only [beq_iff_eq]
    intro hkx
    obtain ⟨a, l₁, l₂, hnl₁, ha, hl, herase⟩ :=
      List.exists_of_eraseP (p := fun x => x.key == k)
      (List.mem_of_find?_eq_some hfind) (by simp [key_of_get hfind])
    rw [herase] at hx
    rw [hl] at hnodup
    rcases List.mem_append.mp hx with hx1 | hx1
    · exact (by simpa using hnl₁ x hx1 : ¬ x.key = k) hkx
    · have hak : a.key = k := by simpa using ha
      have hdup : (l₁.map Entry.key ++ a.key :: l₂.map Entry.key).Nodup := by
        simpa using hnodup
      have hnd2 := (List.nodup_append.mp hdup).2
      exact (List.nodup_cons.mp hnd2.1).1 (by
        rw [hak, ← hkx]; exact List.mem_map_of_mem Entry.key hx1)

/-- Witness for C3: deadline 5 is before now = 6; the expired entry is
removed and passed to the hook once. -/
theorem get_expired_removes_and_hooks_witness :
    getShard 7 [(⟨"a", 1, some 5⟩ : Entry Nat)] "a" 6
      = some (none, [], [⟨"a", 1, some 5⟩])
    ∧ Shard.get ([] : Shard Nat) "a" = none := by
  have h := get_expired_removes_and_hooks (α := Nat) 7 [⟨"a", 1, some 5⟩]
    "a" ⟨"a", 1, some 5⟩ 5 6 (by decide) rfl rfl (by decide) (by decide)
  simpa using h

/-- C4: with TTL enabled, a successful `GetEntry` of a live entry refreshes
its deadline to `now + ttl` and promotes it to the front of the recency
list; two consecutive such reads, the second at a strictly later instant,
therefore observe strictly different (later) deadlines. -/
theorem sliding_ttl_refresh {α} (cTTL : Nat) (s : Shard α) (k : String)
    (e : Entry α) (d now₁ now₂ : Nat) (hTTL : cTTL ≠ 0)
    (hfind : Shard.get s k = some e) (hd : e.expiration = some d)
    (hlive₁ : ¬ d < now₁) (hseq : now₁ < now₂)
    (hlive₂ : ¬ now₁ + cTTL < now₂) :
    getEntryShard cTTL s k now₁
      = some (some { e with expiration := some (now₁ + cTTL) },
          { e with expiration := some (now₁ + cTTL) }
            :: s.eraseP (fun x => x.key == k), [])
    ∧ getEntryShard cTTL
        ({ e with expiration := some (now₁ + cTTL) }
          :: s.eraseP (fun x => x.key == k)) k now₂
      = some (some { e with expiration := some (now₂ + cTTL) },
          { e with expiration := some (now₂ + cTTL) }
            :: s.eraseP (fun x => x.key == k), [])
    ∧ now₁ + cTTL < now₂ + cTTL := by
  have hk : e.key = k := key_of_get hfind
  refine ⟨?_, ?_, by omega⟩
  · unfold getEntryShard
    rw [getEntry_live _ _ _ _ _ _ hTTL hfind hd hlive₁]
    simp [genExp, hTTL]
  · have hfind₂ : Shard.get
        ({ e with expiration := some (now₁ + cTTL) }
          :: s.eraseP (fun x => x.key == k)) k
        = some { e with expiration := some (now₁ + cTTL) } :=
      List.find?_cons_of_pos _ (by simp [hk])
    unfold getEntryShard
    rw [getEntry_live _ _ _ _ _ _ hTTL hfind₂ rfl hlive₂]
    simp only [genExp, hTTL, ne_eq, not_false_iff, if_pos, ite_true]
    rw [List.eraseP_cons_of_pos (by simp [hk])]

/-- Witness for C4: a live entry read at times 1 and then 2 on a TTL-10
cache yields deadlines 11 then 12. -/
theorem sliding_ttl_refresh_witness :
    getEntryShard 10 [(⟨"a", 7, some 5⟩ : Entry Nat)] "a" 1
      = some (some ⟨"a", 7, some 11⟩, [⟨"a", 7, some 11⟩], [])
    ∧ getEntryShard 10 [(⟨"a", 7, some 11⟩ : Entry Nat)] "a" 2
      = some (some ⟨"a", 7, some 12⟩, [⟨"a", 7, some 12⟩], [])
    ∧ 11 < 12 := by
  have h := sliding_ttl_refresh (α := Nat) 10 [⟨"a", 7, some 5⟩] "a"
    ⟨"a", 7, some 5⟩ 5 1 2 (by decide) rfl rfl (by decide) (by decide)
    (by decide)
  simpa using h

/-- C5: after `Flush()` the cache length is 0, and the removal hook has been
invoked exactly once per entry stored before the flush: the hook trace is
precisely the concatenation of the shards' recency lists, so its length is
the pre-flush `Len()`. -/
theorem flush_empties_and_hooks_each_once {α} (c : LRU α) :
    (c.flush).1.len = 0
    ∧ (c.flush).2 = c.shards.flatten
    ∧ (c.flush).2.length = c.len := by
  refine ⟨?_, rfl, ?_⟩
  · simp [LRU.flush, LRU.len, Shard.size, List.map_replicate,
      List.sum_replicate]
  · have hms : c.shards.map Shard.size = c.shards.map List.length :=
      List.map_congr_left fun a _ => rfl
    show c.shards.flatten.length = c.len
    rw [List.length_flatten]
    unfold LRU.len
    rw [hms]

/-- `putIfAbsent` never disturbs an existing binding: a key found before is
found afterwards, bound to the same entry (same value and deadline). -/
lemma putIfAbsent_preserves_get {α} (s : Shard α) (r : Entry α) (k : String)
    (e : Entry α) (h : Shard.get s k = some e) :
    Shard.get (Shard.putIfAbsent s r) k = some e := by
  unfold Shard.putIfAbsent
  by_cases hp : (Shard.get s r.key).isSome
  · rw [if_pos hp]; exact h
  · rw [if_neg hp]
    have hrk : ¬ (r.key == k) = true := by
      simp only [beq_iff_eq]
      intro hk
      rw [hk, h] at hp
      exact hp rfl
    unfold Shard.add Shard.get
    rw [List.find?_cons_of_neg (p := fun e => e.key == k) s hrk]
    exact h

/-- `getD`-of-`set` away from the written index. -/
lemma getD_set_of_ne {α} (l : List (List (Entry α))) (i j : Nat)
    (x : List (Entry α)) (h : j ≠ i) : (l.set j x).getD i [] = l.getD i [] := by
  rw [List.getD_eq_getElem?_getD, List.getD_eq_getElem?_getD,
    List.getElem?_set_ne h]

/-- One `Load` step (decoding one record) preserves every binding already
present in every shard. -/
lemma load_step_preserves {α} (c : LRU α) (r : Entry α) (i : Nat) (k : String)
    (e : Entry α) (h : Shard.get (c.shards.getD i []) k = some e) :
    Shard.get (((c.withShard (c.shardIdx r.key)
        (Shard.putIfAbsent (c.shards.getD (c.shardIdx r.key) []) r)).shards).getD
          i []) k = some e := by
  simp only [LRU.withShard]
  by_cases hji : c.shardIdx r.key = i
  · subst hji
    have hlt : c.shardIdx r.key < c.shards.length := by
      by_contra hge
      rw [List.getD_eq_default _ _ (Nat.le_of_not_lt hge)] at h
      exact Option.noConfusion h
    rw [getD_set_self _ _ _ hlt]
    exact putIfAbsent_preserves_get _ _ _ _ h
  · rw [getD_set_of_ne _ _ _ _ hji]
    exact h

/-- C6: `Load` inserts only absent keys: every key present before the load
is bound to the same entry (same value, same deadline) afterwards, for any
decoded record stream — restoration is additive, never a replace. -/
theorem load_never_overwrites {α} (c : LRU α) (rs : List (Entry α))
    (i : Nat) (k : String) (e : Entry α)
    (h : Shard.get (c.shards.getD i []) k = some e) :
    Shard.get ((c.load rs).shards.getD i []) k = some e := by
  induction rs generalizing c with
  | nil => exact h
  | cons r rs ih => exact ih _ (load_step_preserves c r i k e h)

/-- Witness for C6: loading records for keys "a" (already present, with a
different value) and "b" leaves "a"'s stored entry untouched. -/
theorem load_never_overwrites_witness :
    Shard.get ((LRU.load
        { TTL := 0, shardSize := 1, eps := 1,
          shards := [[(⟨"a", 1, some 5⟩ : Entry Nat)]], hashFn := fun _ => 0 }
        [⟨"a", 99, none⟩, ⟨"b", 2, none⟩]).shards.getD 0 []) "a"
      = some ⟨"a", 1, some 5⟩ :=
  load_never_overwrites
    { TTL := 0, shardSize := 1, eps := 1, shards := [[⟨"a", 1, some 5⟩]],
      hashFn := fun _ => 0 }
    [⟨"a", 99, none⟩, ⟨"b", 2, none⟩] 0 "a" ⟨"a", 1, some 5⟩ rfl

/-- Inserting an absent key (any TTL argument) leaves the fresh entry at the
front of the shard, provided the per-shard bound is at least 1. -/
lemma setWithTTLShard_absent_head {α} (cTTL eps : Nat) (s : Shard α)
    (k : String) (v : α) (ttl now : Nat)
    (habs : Shard.get s k = none) (heps : 1 ≤ eps) :
    ∃ t tr, setWithTTLShard cTTL eps s k v ttl now
      = some ((⟨k, v, if ttl ≠ 0 then some (now + ttl) else none⟩ : Entry α)
          :: t, tr) := by
  simp only [setWithTTLShard]
  rw [getEntry_absent _ _ _ _ _ habs]
  have hexp : (fun x => if ttl ≠ 0 then (genExp ttl now).2 else none)
      = (fun x : Unit => if ttl ≠ 0 then some (now + ttl) else none) := by
    funext x
    by_cases h : ttl = 0 <;> simp [genExp, h]
  have hexp' : (if ttl ≠ 0 then (genExp ttl now).2 else none)
      = (if ttl ≠ 0 then some (now + ttl) else none) :=
    congrFun hexp ()
  rw [hexp']
  simp only [Shard.add, Shard.size, List.length_cons]
  by_cases hsz : eps < s.length + 1
  · rw [if_pos hsz]
    cases s with
    | nil => exact absurd hsz (by simp only [List.length_nil]; omega)
    | cons b t' =>
      exact ⟨(b :: t').dropLast, (b :: t').getLast?.toList,
        by rw [List.dropLast_cons₂, List.getLast?_cons_cons, List.nil_append]⟩
  · rw [if_neg hsz]
    exact ⟨s, [], rfl⟩

/-- C7: `SetOrUpdate(key, value, fn)` returns whether the key existed: on an
absent key it returns `false` and stores the raw value verbatim through the
normal write path (`Set`); on a present live key it returns `true` and
applies `fn` to the stored entry in place. -/
theorem setOrUpdate_spec {α} (cTTL eps : Nat) (s : Shard α) (k : String)
    (v : α) (cb : Entry α → Entry α) (now : Nat) :
    (Shard.get s k = none → 1 ≤ eps →
      ∃ s' tr, setOrUpdateShard cTTL eps s k v cb now = some (false, s', tr)
        ∧ setShard cTTL eps s k v now = some (s', tr)
        ∧ Shard.get s' k
            = some ⟨k, v, if cTTL ≠ 0 then some (now + cTTL) else none⟩)
    ∧ (∀ e, Shard.get s k = some e →
        (cTTL = 0 ∨ ∃ d, e.expiration = some d ∧ ¬ d < now) →
        setOrUpdateShard cTTL eps s k v cb now
          = some (true,
              cb { e with expiration := (genExp cTTL now).2 }
                :: s.eraseP (fun x => x.key == k), [])) := by
  constructor
  · intro habs heps
    obtain ⟨t, tr, hset⟩ :=
      setWithTTLShard_absent_head cTTL eps s k v cTTL now habs heps
    refine ⟨(⟨k, v, if cTTL ≠ 0 then some (now + cTTL) else none⟩ : Entry α)
      :: t, tr, ?_, ?_, ?_⟩
    · unfold setOrUpdateShard
      rw [getEntry_absent _ _ _ _ _ habs]
      simp [hset]
    · unfold setShard
      exact hset
    · exact List.find?_cons_of_pos _ (by simp)
  · intro e hfind hlive
    by_cases hTTL : cTTL = 0
    · subst hTTL
      unfold setOrUpdateShard
      rw [getEntry_ttl0 _ _ _ _ _ hfind]
    · rcases hlive with h0 | ⟨d, hd, hlt⟩
      · exact absurd h0 hTTL
      unfold setOrUpdateShard
      rw [getEntry_live _ _ _ _ _ _ hTTL hfind hd hlt]

/-- Witness for C7: on an empty shard `SetOrUpdate("x", 3, inc)` reports
"did not exist" and stores 3 raw; a second call on the resulting shard
reports "existed" and increments the stored value in place. -/
theorem setOrUpdate_spec_witness :
    setOrUpdateShard 0 1 ([] : Shard Nat) "x" 3
      (fun e => { e with value := e.value + 1 }) 0
      = some (false, [⟨"x", 3, none⟩], [])
    ∧ setOrUpdateShard 0 1 [(⟨"x", 3, none⟩ : Entry Nat)] "x" 5
      (fun e => { e with value := e.value + 1 }) 0
      = some (true, [⟨"x", 4, none⟩], []) := by
  constructor
  · obtain ⟨s', tr, h1, h2, h3⟩ := (setOrUpdate_spec (α := Nat) 0 1 [] "x" 3
      (fun e => { e with value := e.value + 1 }) 0).1 rfl (by decide)
    have hcalc : setShard 0 1 ([] : Shard Nat) "x" 3 0
        = some ([⟨"x", 3, none⟩], []) := rfl
    have heq := hcalc.symm.trans h2
    simp only [Option.some_inj, Prod.mk.injEq] at heq
    rw [← heq.1, ← heq.2] at h1
    exact h1
  · have h := (setOrUpdate_spec (α := Nat) 0 1 [⟨"x", 3, none⟩] "x" 5
      (fun e => { e with value := e.value + 1 }) 0).2 ⟨"x", 3, none⟩ rfl
      (Or.inl rfl)
    simpa [genExp] using h

/-- C8: on a cache with TTL enabled, a key stored via
`SetWithTTL(k, v, NoExpiration)` carries no deadline; every subsequent
lookup of it — `Get`, `GetEntry`, `Update`, or `Set`'s overwrite lookup —
reaches the expiration check `entry.Expiration.Before(now)` and dereferences
the nil deadline (modelled as the `none` outcome): the lookup path is not
total for entries without a deadline. -/
theorem no_deadline_lookup_panics {α} (cTTL eps : Nat) (s : Shard α)
    (k : String) (v v' : α) (cb : Entry α → Entry α) (now now' : Nat)
    (hTTL : cTTL ≠ 0) (habs : Shard.get s k = none) (heps : 1 ≤ eps) :
    (setWithTTLShard cTTL eps s k v 0 now).map (fun r => Shard.get r.1 k)
      = some (some ⟨k, v, none⟩)
    ∧ (setWithTTLShard cTTL eps s k v 0 now).map
        (fun r => getShard cTTL r.1 k now') = some none
    ∧ (setWithTTLShard cTTL eps s k v 0 now).map
        (fun r => getEntryShard cTTL r.1 k now') = some none
    ∧ (setWithTTLShard cTTL eps s k v 0 now).map
        (fun r => updateShard cTTL r.1 k cb now') = some none
    ∧ (setWithTTLShard cTTL eps s k v 0 now).map
        (fun r => setWithTTLShard cTTL eps r.1 k v' cTTL now') = some none := by
  obtain ⟨t, tr, hset⟩ :=
    setWithTTLShard_absent_head cTTL eps s k v 0 now habs heps
  simp only [ne_eq, not_true_eq_false, ite_false] at hset
  have hfind : Shard.get ((⟨k, v, none⟩ : Entry α) :: t) k
      = some ⟨k, v, none⟩ :=
    List.find?_cons_of_pos _ (by simp)
  have hnil : ∀ exp, getEntry cTTL ((⟨k, v, none⟩ : Entry α) :: t) k now' exp
      = .nilDeref :=
    fun exp => getEntry_nilExp _ _ _ _ _ hTTL hfind rfl
  rw [hset]
  refine ⟨by simp [hfind], ?_, ?_, ?_, ?_⟩
  · rw [Option.map_some']
    unfold getShard
    rw [hnil]
  · rw [Option.map_some']
    unfold getEntryShard
    rw [hnil]
  · rw [Option.map_some']
    unfold updateShard
    rw [hnil]
  · rw [Option.map_some']
    simp only [setWithTTLShard]
    rw [hnil]

/-- Witness for C8: TTL-7 cache, `SetWithTTL("a", 1, NoExpiration)` on an
empty shard, then each lookup of "a" hits the nil-deadline dereference. -/
theorem no_deadline_lookup_panics_witness :
    (setWithTTLShard 7 1 ([] : Shard Nat) "a" 1 0 0).map
        (fun r => Shard.get r.1 "a") = some (some ⟨"a", 1, none⟩)
    ∧ (setWithTTLShard 7 1 ([] : Shard Nat) "a" 1 0 0).map
        (fun r => getShard 7 r.1 "a" 1) = some none
    ∧ (setWithTTLShard 7 1 ([] : Shard Nat) "a" 1 0 0).map
        (fun r => getEntryShard 7 r.1 "a" 1) = some none
    ∧ (setWithTTLShard 7 1 ([] : Shard Nat) "a" 1 0 0).map
        (fun r => updateShard 7 r.1 "a" id 1) = some none
    ∧ (setWithTTLShard 7 1 ([] : Shard Nat) "a" 1 0 0).map
        (fun r => setWithTTLShard 7 1 r.1 "a" 2 7 1) = some none :=
  no_deadline_lookup_panics 7 1 [] "a" 1 2 id 0 1 (by decide) rfl (by decide)

/-- Inversion: a `found` lookup outcome comes from a present key; the shard
rest is the list with that element erased. -/
lemma getEntry_found_inv {α} {cTTL : Nat} {s : Shard α} {k : String}
    {now : Nat} {exp : Option Nat} {e : Entry α} {rest : Shard α}
    (h : getEntry cTTL s k now exp = .found e rest) :
    ∃ e₀, Shard.get s k = some e₀ ∧ e = { e₀ with expiration := exp }
      ∧ rest = s.eraseP (fun x => x.key == k) := by
  cases hg : Shard.get s k with
  | none =>
    rw [getEntry_absent _ _ _ _ _ hg] at h
    exact absurd h (by simp)
  | some e₀ =>
    by_cases hTTL : cTTL = 0
    · subst hTTL
      rw [getEntry_ttl0 _ _ _ _ _ hg] at h
      simp only [LookupResult.found.injEq] at h
      exact ⟨e₀, rfl, h.1.symm, h.2.symm⟩
    · cases hd : e₀.expiration with
      | none =>
        rw [getEntry_nilExp _ _ _ _ _ hTTL hg hd] at h
        exact absurd h (by simp)
      | some d =>
        by_cases hlt : d < now
        · rw [getEntry_expired _ _ _ _ _ _ hTTL hg hd hlt] at h
          exact absurd h (by simp)
        · rw [getEntry_live _ _ _ _ _ _ hTTL hg hd hlt] at h
          simp only [LookupResult.found.injEq] at h
          exact ⟨e₀, rfl, h.1.symm, h.2.symm⟩

/-- Inversion: a `notFound` lookup outcome leaves the shard unchanged or
erases the expired element. -/
lemma getEntry_notFound_inv {α} {cTTL : Nat} {s : Shard α} {k : String}
    {now : Nat} {exp : Option Nat} {s₁ : Shard α} {tr : List (Entry α)}
    (h : getEntry cTTL s k now exp = .notFound s₁ tr) :
    s₁ = s ∨ s₁ = s.eraseP (fun x => x.key == k) := by
  cases hg : Shard.get s k with
  | none =>
    rw [getEntry_absent _ _ _ _ _ hg] at h
    simp only [LookupResult.notFound.injEq] at h
    exact Or.inl h.1.symm
  | some e₀ =>
    by_cases hTTL : cTTL = 0
    · subst hTTL
      rw [getEntry_ttl0 _ _ _ _ _ hg] at h
      exact absurd h (by simp)
    · cases hd : e₀.expiration with
      | none =>
        rw [getEntry_nilExp _ _ _ _ _ hTTL hg hd] at h
        exact absurd h (by simp)
      | some d =>
        by_cases hlt : d < now
        · rw [getEntry_expired _ _ _ _ _ _ hTTL hg hd hlt] at h
          simp only [LookupResult.notFound.injEq] at h
          exact Or.inr h.1.symm
        · rw [getEntry_live _ _ _ _ _ _ hTTL hg hd hlt] at h
          exact absurd h (by simp)

/-- C9: every successful `Set`/`SetWithTTL` preserves the per-shard capacity
invariant `len ≤ eps`, but `Load` performs no capacity check: loading two
records into a capacity-1 cache (`NewLRU(1, 1, NoExpiration)`, so `eps = 1`)
leaves a shard of length 2 and `Len() = 2`, exceeding the requested
capacity. -/
theorem set_preserves_capacity_load_does_not :
    (∀ (α : Type) (cTTL eps : Nat) (s : Shard α) (k : String) (v : α)
        (ttl now : Nat) (s' : Shard α) (tr : List (Entry α)),
      Shard.size s ≤ eps →
      setWithTTLShard cTTL eps s k v ttl now = some (s', tr) →
      Shard.size s' ≤ eps)
    ∧ (NewLRU Nat 1 1 0 (fun _ => 0)).eps = 1
    ∧ Shard.size ((LRU.load (NewLRU Nat 1 1 0 (fun _ => 0))
        [⟨"a", 1, none⟩, ⟨"b", 2, none⟩]).shards.getD 0 []) = 2
    ∧ (LRU.load (NewLRU Nat 1 1 0 (fun _ => 0))
        [⟨"a", 1, none⟩, ⟨"b", 2, none⟩]).len = 2 := by
  refine ⟨?_, rfl, rfl, rfl⟩
  intro α cTTL eps s k v ttl now s' tr hle hset
  simp only [setWithTTLShard] at hset
  cases hg : getEntry cTTL s k now (genExp ttl now).2 with
  | nilDeref => rw [hg] at hset; exact absurd hset (by simp)
  | found e rest =>
    rw [hg] at hset
    simp only [Option.some_inj, Prod.mk.injEq] at hset
    obtain ⟨e₀, hfind, _, hrest⟩ := getEntry_found_inv hg
    have hmem := List.mem_of_find?_eq_some hfind
    have hp : (fun x => x.key == k) e₀ = true := by
      simp [key_of_get hfind]
    have hlen := List.length_eraseP_of_mem (p := fun x => x.key == k) hmem hp
    have hpos : 1 ≤ s.length := List.length_pos_of_mem hmem
    rw [← hset.1]
    simp only [Shard.size, List.length_cons, hrest, hlen] at *
    omega
  | notFound s₁ tr₁ =>
    rw [hg] at hset
    simp only [] at hset
    have hs₁ : s₁.length ≤ s.length := by
      rcases getEntry_notFound_inv hg with h1 | h1
      · rw [h1]
      · rw [h1]; exact List.length_eraseP_le s
    by_cases hsz : Shard.size (Shard.add s₁
        ⟨k, v, if ttl ≠ 0 then (genExp ttl now).2 else none⟩) > eps
    · rw [if_pos hsz] at hset
      simp only [Option.some_inj, Prod.mk.injEq] at hset
      rw [← hset.1]
      simp only [Shard.size, Shard.add, List.length_dropLast, List.length_cons]
      simp only [Shard.size] at hle
      omega
    · rw [if_neg hsz] at hset
      simp only [Option.some_inj, Prod.mk.injEq] at hset
      rw [← hset.1]
      simp only [Shard.size, Shard.add, List.length_cons] at hsz ⊢
      omega

/-- C10: with the default TTL disabled (`NoExpiration`), every successful
lookup — `Get`, `GetEntry`, `Update`, or the overwrite path of `Set` —
unconditionally overwrites the found entry's deadline with the absent (nil)
deadline, erasing any per-entry deadline previously stored: even an entry
whose stored deadline lies in the past is found (never expired), and a miss
removes nothing, so such a cache never expires any entry. -/
theorem ttl_disabled_lookup_clears_deadline {α} (s : Shard α) (k : String)
    (now : Nat) :
    (∀ e, Shard.get s k = some e →
      getShard 0 s k now
        = some (some e.value,
            { e with expiration := none } :: s.eraseP (fun x => x.key == k),
            [])
      ∧ getEntryShard 0 s k now
        = some (some { e with expiration := none },
            { e with expiration := none } :: s.eraseP (fun x => x.key == k),
            [])
      ∧ (∀ cb : Entry α → Entry α, updateShard 0 s k cb now
        = some (some (cb { e with expiration := none }),
            cb { e with expiration := none }
              :: s.eraseP (fun x => x.key == k), []))
      ∧ (∀ eps (v : α), setWithTTLShard 0 eps s k v 0 now
        = some ({ e with value := v, expiration := none }
            :: s.eraseP (fun x => x.key == k), [])))
    ∧ (Shard.get s k = none → getShard 0 s k now = some (none, s, [])) := by
  constructor
  · intro e hfind
    refine ⟨?_, ?_, ?_, ?_⟩
    · unfold getShard
      rw [getEntry_ttl0 _ _ _ _ _ hfind]
      simp [genExp]
    · unfold getEntryShard
      rw [getEntry_ttl0 _ _ _ _ _ hfind]
      simp [genExp]
    · intro cb
      unfold updateShard
      rw [getEntry_ttl0 _ _ _ _ _ hfind]
      simp [genExp]
    · intro eps v
      simp only [setWithTTLShard]
      rw [getEntry_ttl0 _ _ _ _ _ hfind]
      simp [genExp]
  · intro habs
    unfold getShard
    rw [getEntry_absent _ _ _ _ _ habs]

/-- Witness for C10: an entry whose stored deadline (5) is already past
(now = 10) is still found on a TTL-disabled cache and its deadline is
erased; a miss removes nothing. -/
theorem ttl_disabled_lookup_clears_deadline_witness :
    getShard 0 [(⟨"a", 3, some 5⟩ : Entry Nat)] "a" 10
      = some (some 3, [⟨"a", 3, none⟩], [])
    ∧ getShard 0 [(⟨"a", 3, some 5⟩ : Entry Nat)] "b" 10
      = some (none, [⟨"a", 3, some 5⟩], []) := by
  constructor
  · have h := ((ttl_disabled_lookup_clears_deadline (α := Nat)
      [⟨"a", 3, some 5⟩] "a" 10).1 ⟨"a", 3, some 5⟩ rfl).1
    simpa using h
  · have h := (ttl_disabled_lookup_clears_deadline (α := Nat)
      [⟨"a", 3, some 5⟩] "b" 10).2 rfl
    simpa using h

/-- Witness for C9: a full capacity-1 shard stays at length 1 across a
successful insert (which evicts), per the preservation half of the claim. -/
theorem set_preserves_capacity_load_does_not_witness :
    Shard.size [(⟨"a", 1, none⟩ : Entry Nat)] ≤ 1
    ∧ Shard.size [(⟨"b", 2, none⟩ : Entry Nat)] ≤ 1 :=
  ⟨by decide,
    set_preserves_capacity_load_does_not.1 Nat 0 1 [⟨"a", 1, none⟩] "b" 2 0 0
      [⟨"b", 2, none⟩] [⟨"a", 1, none⟩] (by decide) rfl⟩
